import Mathlib

/-!
# Polyedge — Position/Trade Reconciliation & Market-Level PNL Engine

A shallow embedding of the reconciliation and PNL engine of the Polyedge
repository, together with the two frontend display components
(`ConvictionBar`, `PnLValue`).  The backend engine itself (Django/Python
modules `trades/`, `positions/`, `markets/`, `wallets/`) is not present in
this checkout — only its architecture documentation is — so the engine
definitions below are modelled from the specification's own words; each such
definition says so in its doc comment.  The frontend components are embedded
directly from their TypeScript sources.

Numbers (cash amounts, share counts, mark prices) are modelled as `Rat`.
-/

namespace Polyedge

/-! ## Trade classifier -/

/-- Modelled from the spec: the five known trade types of the upstream
platform (spec §3 "Trade: atomic upstream event with a type (BUY, SELL,
SPLIT, MERGE, REDEEM)"); the backend enum itself is not in this checkout. -/
inductive TradeType where
  | BUY
  | SELL
  | SPLIT
  | MERGE
  | REDEEM
deriving DecidableEq

/-- Modelled from the spec: the two directional classes of §4.1
(investment = cash-out-shares-in, divestment = cash-in-shares-out). -/
inductive TradeDirection where
  | investment
  | divestment
deriving DecidableEq

/-- Modelled from the spec §4.1 / docs `INVESTMENT_TYPES = [BUY, SPLIT]`,
`DIVESTMENT_TYPES = [SELL, MERGE, REDEEM]`: the Trade Classifier on the five
known trade types, a pure total function. -/
def classifyType : TradeType → TradeDirection
  | .BUY => .investment
  | .SPLIT => .investment
  | .SELL => .divestment
  | .MERGE => .divestment
  | .REDEEM => .divestment

/-- Modelled from the spec §4.1: sign convention of the cash amount for each
directional class — investment is an outflow (negative cash), divestment an
inflow (positive cash). -/
def cashSign : TradeDirection → Int
  | .investment => -1
  | .divestment => 1

/-- Modelled from the spec §4.1: sign convention of the share delta for each
directional class — investment has positive shares, divestment negative. -/
def sharesSign : TradeDirection → Int
  | .investment => 1
  | .divestment => -1

/-- Modelled from the spec §4.1: validation of a raw upstream trade-type
string.  Unknown trade types are a hard input-validation failure surfaced to
the caller (spec §7 taxonomy (2)); the backend validation code is not in this
checkout. -/
def parseTradeType (s : String) : Except String TradeType :=
  if s = "BUY" then .ok .BUY
  else if s = "SELL" then .ok .SELL
  else if s = "SPLIT" then .ok .SPLIT
  else if s = "MERGE" then .ok .MERGE
  else if s = "REDEEM" then .ok .REDEEM
  else .error s

/-- Modelled from the spec §4.1: the full Trade Classifier on raw input —
validate the type string, then classify.  An unknown type propagates as an
error, it is never assigned a directional class. -/
def classifyRawTrade (s : String) : Except String TradeDirection :=
  (parseTradeType s).map classifyType

/-- The five known trade-type strings accepted by `parseTradeType`. -/
def knownTradeTypeStrings : List String :=
  ["BUY", "SELL", "SPLIT", "MERGE", "REDEEM"]

/-! ## Frontend: ConvictionBar (src/unnamed/part_002) -/

/-- Embedded from `ConvictionBar` (src/unnamed/part_002, line 18):
`const clampedValue = Math.max(0, Math.min(100, value))`. -/
def clampedValue (value : Rat) : Rat :=
  max 0 (min 100 value)

/-- Embedded from `ConvictionBar` (src/unnamed/part_002, line 43): the fill
width of the inner bar, `style={{ width: `${clampedValue}%` }}`, as a
percentage. -/
def convictionBarFillWidth (value : Rat) : Rat :=
  clampedValue value

/-- Embedded from `ConvictionBar` (src/unnamed/part_002, line 26): the label
`{clampedValue.toFixed(0)}%` displays the clamped value rounded to an
integer. -/
def convictionBarDisplayedPercent (value : Rat) : Int :=
  round (clampedValue value)

/-! ## Frontend: PnLValue (src/frontend/src/components/ui/pnl-value.tsx) -/

/-- The rendering outcome of the `PnLValue` component: either the muted
placeholder dash, or the formatted value styled with a semantic color
class. -/
inductive RenderedPnl where
  | placeholderDash
  | styled (colorClass : String) (value : Rat)
deriving DecidableEq

/-- Embedded from `PnLValue` (pnl-value.tsx, line 33):
`value >= 0 ? "text-profit" : "text-loss"`. -/
def pnlColorClass (v : Rat) : String :=
  if 0 ≤ v then "text-profit" else "text-loss"

/-- Embedded from `PnLValue` (pnl-value.tsx, lines 24–39): `null` and
`undefined` both render the placeholder dash; any numeric value renders the
formatted number styled with `pnlColorClass`.  `null`/`undefined` are
collapsed into `Option.none`; the text produced by `formatCurrency` (whose
source is not in this checkout) is abstracted to the value itself, which the
color logic never inspects beyond its sign. -/
def renderPnLValue (value : Option Rat) : RenderedPnl :=
  match value with
  | none => .placeholderDash
  | some v => .styled (pnlColorClass v) v

/-! ## Trade aggregation -/

/-- Modelled from the spec §3: a raw upstream Trade — type, signed cash
amount, signed share delta, timestamp, for one market's outcome.  The
backend trade model is not in this checkout. -/
structure Trade where
  outcome : String
  date : Nat
  tradeType : TradeType
  amount : Rat
  shares : Rat
  timestamp : Nat
deriving DecidableEq

/-- Modelled from the spec §4.2: the aggregation key
(outcome × calendar date × direction-class); the market is fixed, one
aggregation runs per market. -/
structure BatchKey where
  outcome : String
  date : Nat
  direction : TradeDirection
deriving DecidableEq

/-- Modelled from the spec §3: a Batch summarizes one or more Trades sharing
a key, accumulating their signed amount and signed share delta. -/
structure Batch where
  key : BatchKey
  amount : Rat
  shares : Rat
deriving DecidableEq

/-- The aggregation key of a raw trade: its outcome, date and the
directional class assigned by the Trade Classifier. -/
def tradeKey (t : Trade) : BatchKey :=
  ⟨t.outcome, t.date, classifyType t.tradeType⟩

/-- Modelled from the spec §4.2: accumulate one trade's signed amount and
share delta into the batch list — ties (same key) sum, a new key appends a
fresh batch. -/
def upsertAdd (bs : List Batch) (k : BatchKey) (a s : Rat) : List Batch :=
  match bs with
  | [] => [⟨k, a, s⟩]
  | b :: rest =>
    if b.key = k then ⟨k, b.amount + a, b.shares + s⟩ :: rest
    else b :: upsertAdd rest k a s

/-- Modelled from the spec §4.2: one step of the single-pass aggregation; a
trade with zero shares and zero amount is dropped (no-op, not an error). -/
def aggStep (bs : List Batch) (t : Trade) : List Batch :=
  if t.amount = 0 ∧ t.shares = 0 then bs
  else upsertAdd bs (tradeKey t) t.amount t.shares

/-- Modelled from the spec §4.2: the Trade Aggregator — a single pass over
the raw trades of one market, accumulating signed amount and signed share
delta per (outcome, date, direction) key. -/
def aggregateTrades (ts : List Trade) : List Batch :=
  ts.foldl aggStep []

/-- Sum of signed trade amounts over the raw trades whose aggregation key
satisfies `p`. -/
def tradesAmountP (ts : List Trade) (p : BatchKey → Bool) : Rat :=
  ((ts.filter fun t => p (tradeKey t)).map Trade.amount).sum

/-- Sum of signed trade share deltas over the raw trades whose aggregation
key satisfies `p`. -/
def tradesSharesP (ts : List Trade) (p : BatchKey → Bool) : Rat :=
  ((ts.filter fun t => p (tradeKey t)).map Trade.shares).sum

/-- Sample trade for concrete witnesses: first BUY of a page. -/
def sampleBuyA : Trade := ⟨"YES", 0, .BUY, -30, 60, 5⟩

/-- Sample trade for concrete witnesses: second BUY sharing the key. -/
def sampleBuyB : Trade := ⟨"YES", 0, .BUY, -20, 40, 6⟩

/-- Sample trade for concrete witnesses: a SELL arriving on a later page. -/
def sampleSell : Trade := ⟨"YES", 1, .SELL, 25, -50, 9⟩

/-! ## Market PNL calculator -/

/-- Sum of batch amounts over the batches whose key satisfies `p`. -/
def sumAmountP (bs : List Batch) (p : BatchKey → Bool) : Rat :=
  ((bs.filter fun b => p b.key).map Batch.amount).sum

/-- Sum of batch share deltas over the batches whose key satisfies `p`. -/
def sumSharesP (bs : List Batch) (p : BatchKey → Bool) : Rat :=
  ((bs.filter fun b => p b.key).map Batch.shares).sum

/-- Modelled from the spec §4.3: `totalInvested = Σ investment-batch amounts
(absolute value)` — investment cash amounts are signed negative, the total
is their magnitude. -/
def totalInvested (bs : List Batch) : Rat :=
  ((bs.filter fun b => b.key.direction = TradeDirection.investment).map
    fun b => |b.amount|).sum

/-- Modelled from the spec §4.3: `totalDivested = Σ divestment-batch
amounts` (signed positive). -/
def totalDivested (bs : List Batch) : Rat :=
  sumAmountP bs fun k => k.direction = TradeDirection.divestment

/-- Shares bought into an outcome: sum of investment-batch share deltas
(signed positive) for that outcome. -/
def investmentShares (bs : List Batch) (o : String) : Rat :=
  sumSharesP bs fun k => k.direction = TradeDirection.investment ∧ k.outcome = o

/-- Shares divested out of an outcome, as a magnitude: divestment share
deltas are signed negative (spec §4.1), so the magnitude is their negated
sum. -/
def divestmentSharesMag (bs : List Batch) (o : String) : Rat :=
  -(sumSharesP bs fun k => k.direction = TradeDirection.divestment ∧ k.outcome = o)

/-- Modelled from the spec §4.3: outstanding shares per outcome =
investment shares − divestment shares. -/
def outstandingShares (bs : List Batch) (o : String) : Rat :=
  investmentShares bs o - divestmentSharesMag bs o

/-- The distinct outcomes mentioned by a market's batches. -/
def batchOutcomes (bs : List Batch) : List String :=
  (bs.map fun b => b.key.outcome).dedup

/-- Modelled from the spec §4.3: `currentValue = Σ outstanding shares per
outcome × current mark price for that outcome`, outstanding floored at
zero. -/
def currentValueOf (bs : List Batch) (price : String → Rat) : Rat :=
  ((batchOutcomes bs).map fun o => max 0 (outstandingShares bs o) * price o).sum

/-- A data-inconsistency report: the outcome whose outstanding shares came
out negative (spec §7 taxonomy (2)). -/
structure PnlError where
  outcome : String
deriving DecidableEq

/-- Modelled from the spec §4.3: the per-market PNL result
`(totalInvested, totalDivested, currentValue, pnl)`. -/
structure PnlResult where
  totalInvested : Rat
  totalDivested : Rat
  currentValue : Rat
  pnl : Rat
deriving DecidableEq

/-- Modelled from the spec §4.3 and §7: the Market PNL Calculator.  A
negative outstanding-share result for any outcome is an upstream data
inconsistency, reported as an error rather than silently clamped; otherwise
the result carries `pnl = totalDivested + currentValue − totalInvested`. -/
def calcMarketPnl (bs : List Batch) (price : String → Rat) :
    Except PnlError PnlResult :=
  match (batchOutcomes bs).find? (fun o => outstandingShares bs o < 0) with
  | some o => .error ⟨o⟩
  | none =>
    .ok ⟨totalInvested bs, totalDivested bs, currentValueOf bs price,
         totalDivested bs + currentValueOf bs price - totalInvested bs⟩

/-- Modelled from the spec §7: a market's contribution to the pass's bulk
write — present exactly when its PNL calculation succeeded; a market with a
data inconsistency is excluded. -/
def marketWrite (bs : List Batch) (price : String → Rat) : Option PnlResult :=
  (calcMarketPnl bs price).toOption

/-- Modelled from the spec §7: the data-inconsistency record surfaced to the
caller for a market whose PNL calculation failed. -/
def marketError (bs : List Batch) (price : String → Rat) : Option PnlError :=
  match calcMarketPnl bs price with
  | .error e => some e
  | .ok _ => none

/-! ## PNL fan-out onto positions -/

/-- The four calculated PNL fields mirrored from a Market onto its
Positions (docs: `calculatedamountinvested`, `calculatedamountout`,
`calculatedcurrentvalue` and the pnl). -/
structure PnlFields where
  invested : Rat
  out : Rat
  currentValue : Rat
  pnl : Rat
deriving DecidableEq

/-- A Position row: its own share count plus the mirrored copy of the
market-level calculated fields (never computed independently). -/
structure PositionRec where
  id : Nat
  shares : Rat
  calcFields : Option PnlFields
deriving DecidableEq

/-- A Market row with its calculated fields and its positions. -/
structure MarketRec where
  id : Nat
  calcFields : Option PnlFields
  positions : List PositionRec
deriving DecidableEq

/-- Modelled from the spec §4.3 / docs pseudocode
`market.setPnlCalculations(...)` followed by
`for position in market.positions: position.setPnlCalculations(...)`:
the market-level result is stored once and copied verbatim onto every
position of the market. -/
def setPnlCalculations (m : MarketRec) (f : PnlFields) : MarketRec :=
  { m with
    calcFields := some f,
    positions := m.positions.map fun p => { p with calcFields := some f } }

/-- The calculated fields carried by a PNL result, in fan-out form. -/
def fieldsOfResult (r : PnlResult) : PnlFields :=
  ⟨r.totalInvested, r.totalDivested, r.currentValue, r.pnl⟩

/-! ## Batch persistence (overwrite-keyed upserts) -/

/-- Modelled from the spec §4.2/§6: persisting one Batch into the stored
batches is an upsert keyed on (market, outcome, date, direction) — an
existing row with the same key is overwritten, not appended to. -/
def overwriteBatch (store : List Batch) (b : Batch) : List Batch :=
  match store with
  | [] => [b]
  | c :: rest => if c.key = b.key then b :: rest else c :: overwriteBatch rest b

/-- Modelled from the spec §6: the bulk append-or-merge persistence of an
aggregation run's batches into the stored batches. -/
def persistBatches (store : List Batch) (bs : List Batch) : List Batch :=
  bs.foldl overwriteBatch store

/-- The stored batch for a key, if any. -/
def lookupStore (store : List Batch) (k : BatchKey) : Option Batch :=
  store.find? fun b => b.key = k

/-! ## Position state reconciler -/

/-- Modelled from the spec §4.4: the three-valued position lifecycle
status. -/
inductive PositionStatus where
  | OPEN
  | CLOSED
  | CLOSED_NEED_DATA
deriving DecidableEq

/-- The composite key of a position: (conditionId, outcome). -/
abbrev PosKey := String × String

/-- Modelled from the spec §4.4/§6: one open position of the freshly
fetched API snapshot, keyed by (conditionId, outcome), with current shares
and price. -/
structure ApiPosition where
  conditionId : String
  outcome : String
  shares : Rat
  price : Rat
deriving DecidableEq

/-- Modelled from the spec §4.4/§6: one persisted position row, carrying its
lifecycle status besides the snapshot fields. -/
structure DbPosition where
  conditionId : String
  outcome : String
  shares : Rat
  price : Rat
  status : PositionStatus
deriving DecidableEq

/-- The composite key of an API-snapshot position. -/
def ApiPosition.key (a : ApiPosition) : PosKey := (a.conditionId, a.outcome)

/-- The composite key of a persisted position. -/
def DbPosition.key (d : DbPosition) : PosKey := (d.conditionId, d.outcome)

/-- O(1)-map stand-in: lookup of an API position by its composite key. -/
def findApi (api : List ApiPosition) (k : PosKey) : Option ApiPosition :=
  api.find? fun a => a.key = k

/-- O(1)-map stand-in: lookup of a persisted position by its composite
key. -/
def findDb (db : List DbPosition) (k : PosKey) : Option DbPosition :=
  db.find? fun d => d.key = k

/-- The four output sets of the Position State Reconciler (spec §4.4). -/
structure ReconcileResult where
  toCreate : List ApiPosition
  toClose : List DbPosition
  toReopen : List DbPosition
  toUpdate : List DbPosition
deriving DecidableEq

/-- Modelled from the spec §4.4: classify by presence/absence and
field-level diff — toCreate (in API, absent from DB), toClose (in DB as
OPEN, absent from API), toReopen (in DB as CLOSED/CLOSED_NEED_DATA but
present in API), toUpdate (present in both, share count or price
changed). -/
def reconcile (api : List ApiPosition) (db : List DbPosition) :
    ReconcileResult where
  toCreate := api.filter fun a => (findDb db a.key).isNone
  toClose := db.filter fun d =>
    decide (d.status = PositionStatus.OPEN) && (findApi api d.key).isNone
  toReopen := db.filter fun d =>
    decide (d.status ≠ PositionStatus.OPEN) && (findApi api d.key).isSome
  toUpdate := db.filter fun d =>
    match findApi api d.key with
    | some a => decide (d.status = PositionStatus.OPEN) &&
        decide (a.shares ≠ d.shares ∨ a.price ≠ d.price)
    | none => false

/-- Modelled from the spec §4.4/§4.5: applying a pass's change-set to the
persisted snapshot.  A position present in the API snapshot is synced to the
API fields and OPEN (create/reopen/update); an OPEN position that vanished
is marked CLOSED when resolution data is available and CLOSED_NEED_DATA
otherwise; an already-closed absent position is untouched. -/
def applyChanges (api : List ApiPosition) (db : List DbPosition)
    (hasRes : PosKey → Bool) : List DbPosition :=
  (db.map fun d =>
    match findApi api d.key with
    | some a => { d with shares := a.shares, price := a.price,
                         status := PositionStatus.OPEN }
    | none =>
      if d.status = PositionStatus.OPEN then
        { d with status := if hasRes d.key then PositionStatus.CLOSED
                           else PositionStatus.CLOSED_NEED_DATA }
      else d)
  ++ ((api.filter fun a => (findDb db a.key).isNone).map
      fun a => ⟨a.conditionId, a.outcome, a.shares, a.price, PositionStatus.OPEN⟩)

/-! ## Partition bookkeeping over the reconciler's output sets -/

/-- The composite keys of the toCreate set. -/
def createKeys (r : ReconcileResult) : List PosKey :=
  r.toCreate.map ApiPosition.key

/-- The composite keys of the toClose set. -/
def closeKeys (r : ReconcileResult) : List PosKey :=
  r.toClose.map DbPosition.key

/-- The composite keys of the toReopen set. -/
def reopenKeys (r : ReconcileResult) : List PosKey :=
  r.toReopen.map DbPosition.key

/-- The composite keys of the toUpdate set. -/
def updateKeys (r : ReconcileResult) : List PosKey :=
  r.toUpdate.map DbPosition.key

/-- In how many of the four output sets a composite key appears. -/
def membershipCount (r : ReconcileResult) (k : PosKey) : Nat :=
  (if k ∈ createKeys r then 1 else 0) + (if k ∈ closeKeys r then 1 else 0) +
  (if k ∈ reopenKeys r then 1 else 0) + (if k ∈ updateKeys r then 1 else 0)

/-- The composite keys present in either snapshot. -/
def snapshotKeys (api : List ApiPosition) (db : List DbPosition) :
    List PosKey :=
  api.map ApiPosition.key ++ db.map DbPosition.key

/-- A key on which the reconciler takes no action: present in both snapshots
with unchanged shares/price while OPEN in the DB, or present only in the DB
and already closed. -/
def noActionKey (api : List ApiPosition) (db : List DbPosition)
    (k : PosKey) : Bool :=
  match findDb db k, findApi api k with
  | some d, some a => decide (d.status = PositionStatus.OPEN) &&
      decide (a.shares = d.shares) && decide (a.price = d.price)
  | some d, none => decide (d.status ≠ PositionStatus.OPEN)
  | none, _ => false

/-! ## Theorems: trade classifier (C6, C8) -/

/-- C6: The Trade Classifier is a pure total function on the five known trade
types mapping BUY and SPLIT to the investment class (negative cash, positive
shares) and SELL, MERGE and REDEEM to the divestment class (positive cash,
negative shares). -/
theorem classifier_maps_known_types :
    classifyType .BUY = .investment ∧
    classifyType .SPLIT = .investment ∧
    classifyType .SELL = .divestment ∧
    classifyType .MERGE = .divestment ∧
    classifyType .REDEEM = .divestment ∧
    cashSign .investment = -1 ∧ sharesSign .investment = 1 ∧
    cashSign .divestment = 1 ∧ sharesSign .divestment = -1 ∧
    (∀ t : TradeType, parseTradeType (match t with
        | .BUY => "BUY" | .SELL => "SELL" | .SPLIT => "SPLIT"
        | .MERGE => "MERGE" | .REDEEM => "REDEEM") = .ok t) := by
  refine ⟨rfl, rfl, rfl, rfl, rfl, rfl, rfl, rfl, rfl, ?_⟩
  intro t
  cases t <;> rfl

/-- C8: any trade-type string outside the five known types is surfaced as a
hard input-validation failure: the classifier returns the error carrying the
offending string, never a directional class. -/
theorem classifier_rejects_unknown_types (s : String)
    (h : s ∉ knownTradeTypeStrings) :
    classifyRawTrade s = .error s ∧ ∀ d, classifyRawTrade s ≠ .ok d := by
  have hb : s ≠ "BUY" := by intro hs; exact h (by simp [knownTradeTypeStrings, hs])
  have hse : s ≠ "SELL" := by intro hs; exact h (by simp [knownTradeTypeStrings, hs])
  have hsp : s ≠ "SPLIT" := by intro hs; exact h (by simp [knownTradeTypeStrings, hs])
  have hm : s ≠ "MERGE" := by intro hs; exact h (by simp [knownTradeTypeStrings, hs])
  have hr : s ≠ "REDEEM" := by intro hs; exact h (by simp [knownTradeTypeStrings, hs])
  have herr : classifyRawTrade s = .error s := by
    simp [classifyRawTrade, parseTradeType, hb, hse, hsp, hm, hr, Except.map]
  exact ⟨herr, fun d hd => by rw [herr] at hd; exact Except.noConfusion hd⟩

/-- Witness for C8 at the concrete unknown trade-type string "AIRDROP". -/
theorem classifier_rejects_unknown_types_witness :
    classifyRawTrade "AIRDROP" = .error "AIRDROP" ∧
    ∀ d, classifyRawTrade "AIRDROP" ≠ .ok d :=
  classifier_rejects_unknown_types "AIRDROP" (by decide)

/-! ## Theorems: frontend components (C9, C10) -/

/-- Rounding is monotone on the rationals. -/
lemma round_mono_rat {a b : Rat} (h : a ≤ b) : round a ≤ round b := by
  rw [round_eq, round_eq]
  exact Int.floor_le_floor (by linarith)

/-- C9: the ConvictionBar fill width is `max(0, min(100, value))` percent and,
together with the displayed rounded percentage, always lies in [0, 100], even
for negative inputs or inputs above 100. -/
theorem convictionBar_width_clamped (v : Rat) :
    convictionBarFillWidth v = max 0 (min 100 v) ∧
    0 ≤ convictionBarFillWidth v ∧ convictionBarFillWidth v ≤ 100 ∧
    0 ≤ convictionBarDisplayedPercent v ∧ convictionBarDisplayedPercent v ≤ 100 := by
  have h0 : (0 : Rat) ≤ convictionBarFillWidth v := le_max_left 0 (min 100 v)
  have h100 : convictionBarFillWidth v ≤ 100 :=
    max_le (by norm_num) (min_le_left 100 v)
  refine ⟨rfl, h0, h100, ?_, ?_⟩
  · have h := round_mono_rat h0
    simpa [convictionBarDisplayedPercent] using h
  · have h := round_mono_rat h100
    simpa [convictionBarDisplayedPercent] using h

/-- C10: `PnLValue` renders the placeholder dash exactly on null/undefined,
styles the value with the profit color exactly when `value ≥ 0` and with the
loss color exactly when `value < 0`; zero is displayed in the profit
color. -/
theorem pnlValue_rendering :
    renderPnLValue none = .placeholderDash ∧
    (∀ v : Rat, renderPnLValue (some v) ≠ .placeholderDash) ∧
    (∀ v : Rat, renderPnLValue (some v) = .styled "text-profit" v ↔ 0 ≤ v) ∧
    (∀ v : Rat, renderPnLValue (some v) = .styled "text-loss" v ↔ v < 0) ∧
    renderPnLValue (some 0) = .styled "text-profit" 0 := by
  refine ⟨rfl, fun v => by simp [renderPnLValue], ?_, ?_, by decide⟩
  · intro v
    constructor
    · intro h
      by_contra hneg
      simp [renderPnLValue, pnlColorClass, hneg] at h
    · intro h
      simp [renderPnLValue, pnlColorClass, h]
  · intro v
    constructor
    · intro h
      by_contra hpos
      push_neg at hpos
      simp [renderPnLValue, pnlColorClass, hpos] at h
    · intro h
      simp [renderPnLValue, pnlColorClass, not_le.mpr h]

/-! ## Aggregation sums over raw trades -/

lemma upsertAdd_sumAmountP (bs : List Batch) (k : BatchKey) (a s : Rat)
    (p : BatchKey → Bool) :
    sumAmountP (upsertAdd bs k a s) p
      = sumAmountP bs p + if p k then a else 0 := by
  induction bs with
  | nil =>
    rcases hp : p k with _ | _ <;>
      simp [upsertAdd, sumAmountP, List.filter, hp]
  | cons b rest ih =>
    simp only [sumAmountP] at ih ⊢
    by_cases hk : b.key = k
    · rcases hp : p k with _ | _ <;>
        simp [upsertAdd, hk, hp, List.filter_cons] <;> ring
    · rcases hb : p b.key with _ | _ <;>
        simp [upsertAdd, hk, hb, List.filter_cons, ih] <;> ring

lemma upsertAdd_sumSharesP (bs : List Batch) (k : BatchKey) (a s : Rat)
    (p : BatchKey → Bool) :
    sumSharesP (upsertAdd bs k a s) p
      = sumSharesP bs p + if p k then s else 0 := by
  induction bs with
  | nil =>
    rcases hp : p k with _ | _ <;>
      simp [upsertAdd, sumSharesP, List.filter, hp]
  | cons b rest ih =>
    simp only [sumSharesP] at ih ⊢
    by_cases hk : b.key = k
    · rcases hp : p k with _ | _ <;>
        simp [upsertAdd, hk, hp, List.filter_cons] <;> ring
    · rcases hb : p b.key with _ | _ <;>
        simp [upsertAdd, hk, hb, List.filter_cons, ih] <;> ring

lemma aggStep_sumAmountP (bs : List Batch) (t : Trade) (p : BatchKey → Bool) :
    sumAmountP (aggStep bs t) p
      = sumAmountP bs p + if p (tradeKey t) then t.amount else 0 := by
  unfold aggStep
  by_cases hz : t.amount = 0 ∧ t.shares = 0
  · rw [if_pos hz, hz.1]
    simp
  · rw [if_neg hz]
    exact upsertAdd_sumAmountP bs (tradeKey t) t.amount t.shares p

lemma aggStep_sumSharesP (bs : List Batch) (t : Trade) (p : BatchKey → Bool) :
    sumSharesP (aggStep bs t) p
      = sumSharesP bs p + if p (tradeKey t) then t.shares else 0 := by
  unfold aggStep
  by_cases hz : t.amount = 0 ∧ t.shares = 0
  · rw [if_pos hz, hz.2]
    simp
  · rw [if_neg hz]
    exact upsertAdd_sumSharesP bs (tradeKey t) t.amount t.shares p

lemma foldl_aggStep_sumAmountP (ts : List Trade) (init : List Batch)
    (p : BatchKey → Bool) :
    sumAmountP (ts.foldl aggStep init) p
      = sumAmountP init p + tradesAmountP ts p := by
  induction ts generalizing init with
  | nil => simp [tradesAmountP]
  | cons t ts ih =>
    simp only [List.foldl_cons]
    rw [ih, aggStep_sumAmountP]
    simp only [tradesAmountP, List.filter_cons]
    rcases hp : p (tradeKey t) with _ | _ <;> simp [hp] <;> ring

lemma foldl_aggStep_sumSharesP (ts : List Trade) (init : List Batch)
    (p : BatchKey → Bool) :
    sumSharesP (ts.foldl aggStep init) p
      = sumSharesP init p + tradesSharesP ts p := by
  induction ts generalizing init with
  | nil => simp [tradesSharesP]
  | cons t ts ih =>
    simp only [List.foldl_cons]
    rw [ih, aggStep_sumSharesP]
    simp only [tradesSharesP, List.filter_cons]
    rcases hp : p (tradeKey t) with _ | _ <;> simp [hp] <;> ring

/-- Per-predicate characterization of the aggregator: the batches' summed
amounts over any key predicate equal the raw trades' summed amounts. -/
lemma aggregate_sumAmountP (ts : List Trade) (p : BatchKey → Bool) :
    sumAmountP (aggregateTrades ts) p = tradesAmountP ts p := by
  unfold aggregateTrades
  rw [foldl_aggStep_sumAmountP]
  simp [sumAmountP]

/-- Per-predicate characterization of the aggregator: the batches' summed
share deltas over any key predicate equal the raw trades' summed deltas. -/
lemma aggregate_sumSharesP (ts : List Trade) (p : BatchKey → Bool) :
    sumSharesP (aggregateTrades ts) p = tradesSharesP ts p := by
  unfold aggregateTrades
  rw [foldl_aggStep_sumSharesP]
  simp [sumSharesP]

lemma tradesAmountP_perm {ts ts' : List Trade} (h : ts.Perm ts')
    (p : BatchKey → Bool) : tradesAmountP ts p = tradesAmountP ts' p :=
  List.Perm.sum_eq (List.Perm.map Trade.amount (List.Perm.filter _ h))

lemma tradesSharesP_perm {ts ts' : List Trade} (h : ts.Perm ts')
    (p : BatchKey → Bool) : tradesSharesP ts p = tradesSharesP ts' p :=
  List.Perm.sum_eq (List.Perm.map Trade.shares (List.Perm.filter _ h))

lemma tradesAmountP_append (ts extra : List Trade) (p : BatchKey → Bool) :
    tradesAmountP (ts ++ extra) p = tradesAmountP ts p + tradesAmountP extra p := by
  simp [tradesAmountP, List.filter_append]

lemma tradesSharesP_append (ts extra : List Trade) (p : BatchKey → Bool) :
    tradesSharesP (ts ++ extra) p = tradesSharesP ts p + tradesSharesP extra p := by
  simp [tradesSharesP, List.filter_append]

/-! ## Persistence lemmas -/

lemma lookupStore_overwriteBatch (store : List Batch) (b : Batch)
    (k : BatchKey) :
    lookupStore (overwriteBatch store b) k
      = if b.key = k then some b else lookupStore store k := by
  induction store with
  | nil =>
    by_cases hb : b.key = k <;> simp [overwriteBatch, lookupStore, List.find?, hb]
  | cons c rest ih =>
    by_cases hc : c.key = b.key
    · by_cases hb : b.key = k
      · simp [overwriteBatch, hc, lookupStore, List.find?, hb]
      · have hck : ¬(c.key = k) := fun h => hb (hc ▸ h)
        simp [overwriteBatch, hc, lookupStore, List.find?, hb, hck]
    · by_cases hck : c.key = k
      · have hb : ¬(b.key = k) := fun h => hc ((h.trans hck.symm).symm)
        simp only [overwriteBatch, if_neg hc]
        simp [lookupStore, List.find?, hck, hb]
      · simp only [overwriteBatch, if_neg hc]
        simp only [lookupStore, List.find?] at ih ⊢
        simp [hck, ih]

lemma lookupStore_persistBatches_of_no_key (store bs : List Batch)
    (k : BatchKey) (h : ∀ b ∈ bs, b.key ≠ k) :
    lookupStore (persistBatches store bs) k = lookupStore store k := by
  induction bs generalizing store with
  | nil => rfl
  | cons b rest ih =>
    simp only [persistBatches, List.foldl_cons]
    have hb : b.key ≠ k := h b (by simp)
    have := ih (overwriteBatch store b) (fun c hc => h c (by simp [hc]))
    simp only [persistBatches] at this
    rw [this, lookupStore_overwriteBatch, if_neg hb]

lemma lookupStore_persistBatches_congr (bs : List Batch)
    (s₁ s₂ : List Batch) (k : BatchKey)
    (h : (∃ b ∈ bs, b.key = k) ∨ lookupStore s₁ k = lookupStore s₂ k) :
    lookupStore (persistBatches s₁ bs) k
      = lookupStore (persistBatches s₂ bs) k := by
  induction bs generalizing s₁ s₂ with
  | nil =>
    rcases h with ⟨b, hb, _⟩ | h
    · exact absurd hb (by simp)
    · exact h
  | cons b rest ih =>
    simp only [persistBatches, List.foldl_cons]
    have hstep : (∃ c ∈ rest, c.key = k) ∨
        lookupStore (overwriteBatch s₁ b) k
          = lookupStore (overwriteBatch s₂ b) k := by
      by_cases hb : b.key = k
      · right
        rw [lookupStore_overwriteBatch, lookupStore_overwriteBatch, if_pos hb,
          if_pos hb]
      · rcases h with ⟨c, hc, hck⟩ | h
        · rcases List.mem_cons.mp hc with rfl | hc'
          · exact absurd hck hb
          · exact Or.inl ⟨c, hc', hck⟩
        · right
          rw [lookupStore_overwriteBatch, lookupStore_overwriteBatch,
            if_neg hb, if_neg hb]
          exact h
    exact ih (overwriteBatch s₁ b) (overwriteBatch s₂ b) hstep

/-! ## Aggregated-key membership -/

lemma mem_key_upsertAdd (bs : List Batch) (k0 : BatchKey) (a s : Rat)
    (k : BatchKey) :
    (∃ b ∈ upsertAdd bs k0 a s, b.key = k)
      ↔ (∃ b ∈ bs, b.key = k) ∨ k0 = k := by
  induction bs with
  | nil => simp [upsertAdd]
  | cons b rest ih =>
    by_cases hk : b.key = k0
    · constructor
      · rintro ⟨c, hc, hck⟩
        simp only [upsertAdd, if_pos hk] at hc
        rcases List.mem_cons.mp hc with rfl | hc'
        · exact Or.inr hck
        · exact Or.inl ⟨c, List.mem_cons_of_mem _ hc', hck⟩
      · rintro (⟨c, hc, hck⟩ | rfl)
        · rcases List.mem_cons.mp hc with rfl | hc'
          · exact ⟨⟨k0, c.amount + a, c.shares + s⟩, by simp [upsertAdd, hk],
              by simpa [hk] using hck⟩
          · exact ⟨c, by simp [upsertAdd, hk, hc'], hck⟩
        · exact ⟨⟨k0, b.amount + a, b.shares + s⟩, by simp [upsertAdd, hk], rfl⟩
    · simp only [upsertAdd, if_neg hk]
      constructor
      · rintro ⟨c, hc, hck⟩
        rcases List.mem_cons.mp hc with rfl | hc'
        · exact Or.inl ⟨c, List.mem_cons_self _ _, hck⟩
        · rcases ih.mp ⟨c, hc', hck⟩ with ⟨d, hd, hdk⟩ | rfl
          · exact Or.inl ⟨d, List.mem_cons_of_mem _ hd, hdk⟩
          · exact Or.inr rfl
      · rintro (⟨c, hc, hck⟩ | rfl)
        · rcases List.mem_cons.mp hc with rfl | hc'
          · exact ⟨c, List.mem_cons_self _ _, hck⟩
          · obtain ⟨d, hd, hdk⟩ := ih.mpr (Or.inl ⟨c, hc', hck⟩)
            exact ⟨d, List.mem_cons_of_mem _ hd, hdk⟩
        · obtain ⟨d, hd, hdk⟩ := ih.mpr (Or.inr rfl)
          exact ⟨d, List.mem_cons_of_mem _ hd, hdk⟩

lemma mem_key_aggStep (bs : List Batch) (t : Trade) (k : BatchKey) :
    (∃ b ∈ aggStep bs t, b.key = k)
      ↔ (∃ b ∈ bs, b.key = k) ∨
        (¬(t.amount = 0 ∧ t.shares = 0) ∧ tradeKey t = k) := by
  unfold aggStep
  by_cases hz : t.amount = 0 ∧ t.shares = 0
  · simp [hz]
  · rw [if_neg hz, mem_key_upsertAdd]
    simp [hz]

lemma mem_key_foldl_aggStep (ts : List Trade) (init : List Batch)
    (k : BatchKey) :
    (∃ b ∈ ts.foldl aggStep init, b.key = k)
      ↔ (∃ b ∈ init, b.key = k) ∨
        ∃ t ∈ ts, ¬(t.amount = 0 ∧ t.shares = 0) ∧ tradeKey t = k := by
  induction ts generalizing init with
  | nil => simp
  | cons t ts ih =>
    simp only [List.foldl_cons]
    rw [ih, mem_key_aggStep]
    constructor
    · rintro ((h | h) | ⟨u, hu, hk⟩)
      · exact Or.inl h
      · exact Or.inr ⟨t, List.mem_cons_self _ _, h⟩
      · exact Or.inr ⟨u, List.mem_cons_of_mem _ hu, hk⟩
    · rintro (h | ⟨u, hu, hk⟩)
      · exact Or.inl (Or.inl h)
      · rcases List.mem_cons.mp hu with rfl | hu'
        · exact Or.inl (Or.inr hk)
        · exact Or.inr ⟨u, hu', hk⟩

/-- The keys present in an aggregation result are exactly the keys of the
non-dropped raw trades. -/
lemma mem_key_aggregateTrades (ts : List Trade) (k : BatchKey) :
    (∃ b ∈ aggregateTrades ts, b.key = k)
      ↔ ∃ t ∈ ts, ¬(t.amount = 0 ∧ t.shares = 0) ∧ tradeKey t = k := by
  unfold aggregateTrades
  rw [mem_key_foldl_aggStep]
  simp

/-! ## Theorems: market-level PNL (C1, C2, C7) -/

/-- C1: whenever the Market PNL Calculator succeeds, the market's pnl field
equals `totalDivested + currentValue − totalInvested` exactly, for any
combination of trade batches; the value is computed once per market and only
copied onto positions by the fan-out, never recomputed per position. -/
theorem market_pnl_formula (bs : List Batch) (price : String → Rat)
    (r : PnlResult) (m : MarketRec)
    (h : calcMarketPnl bs price = .ok r) :
    r.pnl = r.totalDivested + r.currentValue - r.totalInvested ∧
    (setPnlCalculations m (fieldsOfResult r)).calcFields = some (fieldsOfResult r) ∧
    ∀ p ∈ (setPnlCalculations m (fieldsOfResult r)).positions,
      p.calcFields = some (fieldsOfResult r) := by
  refine ⟨?_, rfl, ?_⟩
  · unfold calcMarketPnl at h
    split at h
    · exact absurd h (by simp)
    · cases h
      rfl
  · intro p hp
    simp only [setPnlCalculations, List.mem_map] at hp
    obtain ⟨q, _, rfl⟩ := hp
    rfl

/-- Witness for C1: a market with one BUY batch of 100 shares for $50 at
mark price 1/2, fanned out onto a two-position market. -/
theorem market_pnl_formula_witness :
    (⟨50, 0, 50, 0⟩ : PnlResult).pnl =
      (⟨50, 0, 50, 0⟩ : PnlResult).totalDivested +
      (⟨50, 0, 50, 0⟩ : PnlResult).currentValue -
      (⟨50, 0, 50, 0⟩ : PnlResult).totalInvested ∧
    (setPnlCalculations ⟨7, none, [⟨1, 60, none⟩, ⟨2, 40, none⟩]⟩
        (fieldsOfResult ⟨50, 0, 50, 0⟩)).calcFields =
      some (fieldsOfResult ⟨50, 0, 50, 0⟩) ∧
    ∀ p ∈ (setPnlCalculations ⟨7, none, [⟨1, 60, none⟩, ⟨2, 40, none⟩]⟩
        (fieldsOfResult ⟨50, 0, 50, 0⟩)).positions,
      p.calcFields = some (fieldsOfResult ⟨50, 0, 50, 0⟩) :=
  market_pnl_formula
    [⟨⟨"YES", 0, .investment⟩, -50, 100⟩]
    (fun o => if o = "YES" then 1/2 else 0)
    ⟨50, 0, 50, 0⟩
    ⟨7, none, [⟨1, 60, none⟩, ⟨2, 40, none⟩]⟩
    (by norm_num +decide [calcMarketPnl, batchOutcomes, List.find?, outstandingShares,
      investmentShares, divestmentSharesMag, sumSharesP, sumAmountP, totalInvested,
      totalDivested, currentValueOf, List.filter, List.dedup, List.dedup_cons_of_not_mem])

/-- C2: after the fan-out step of a reconciliation pass, any two positions
sharing a market carry identical calculated PNL fields — the market-level
values, copied verbatim. -/
theorem positions_share_market_pnl (m : MarketRec) (f : PnlFields)
    (p q : PositionRec)
    (hp : p ∈ (setPnlCalculations m f).positions)
    (hq : q ∈ (setPnlCalculations m f).positions) :
    p.calcFields = q.calcFields ∧ p.calcFields = some f := by
  simp only [setPnlCalculations, List.mem_map] at hp hq
  obtain ⟨p', _, rfl⟩ := hp
  obtain ⟨q', _, rfl⟩ := hq
  exact ⟨rfl, rfl⟩

/-- Witness for C2: two positions of a concrete market, one of which held a
stale copy of different fields before the pass. -/
theorem positions_share_market_pnl_witness :
    (PositionRec.mk 1 10 (some ⟨5, 6, 7, 8⟩)).calcFields =
      (PositionRec.mk 2 20 (some ⟨5, 6, 7, 8⟩)).calcFields ∧
    (PositionRec.mk 1 10 (some ⟨5, 6, 7, 8⟩)).calcFields = some ⟨5, 6, 7, 8⟩ :=
  positions_share_market_pnl
    ⟨3, none, [⟨1, 10, none⟩, ⟨2, 20, some ⟨1, 2, 3, 4⟩⟩]⟩
    ⟨5, 6, 7, 8⟩
    ⟨1, 10, some ⟨5, 6, 7, 8⟩⟩
    ⟨2, 20, some ⟨5, 6, 7, 8⟩⟩
    (by decide) (by decide)

/-- C7: on success, `currentValue` is the sum over outcomes of outstanding
shares (floored at zero) times the mark price, and every outcome's
outstanding shares are non-negative; when some outcome's outstanding shares
are negative, the market is excluded from the bulk write and a
data-inconsistency error is surfaced instead. -/
theorem market_pnl_current_value_and_inconsistency
    (bs : List Batch) (price : String → Rat) :
    (∀ r, calcMarketPnl bs price = .ok r →
      r.currentValue =
        ((batchOutcomes bs).map fun o =>
          max 0 (outstandingShares bs o) * price o).sum ∧
      ∀ o ∈ batchOutcomes bs, 0 ≤ outstandingShares bs o) ∧
    ((∃ o ∈ batchOutcomes bs, outstandingShares bs o < 0) →
      marketWrite bs price = none ∧ ∃ e, marketError bs price = some e) := by
  rcases hfind : (batchOutcomes bs).find? (fun o => outstandingShares bs o < 0)
    with _ | o
  · constructor
    · intro r h
      unfold calcMarketPnl at h
      rw [hfind] at h
      cases h
      constructor
      · rfl
      · intro o ho
        have := List.find?_eq_none.mp hfind o ho
        simpa using this
    · rintro ⟨o, ho, hneg⟩
      have := List.find?_eq_none.mp hfind o ho
      simp [hneg] at this
  · constructor
    · intro r h
      unfold calcMarketPnl at h
      rw [hfind] at h
      exact absurd h (by simp)
    · intro _
      have hcalc : calcMarketPnl bs price = .error ⟨o⟩ := by
        unfold calcMarketPnl
        rw [hfind]
      refine ⟨?_, ⟨o⟩, ?_⟩
      · simp [marketWrite, hcalc, Except.toOption]
      · simp [marketError, hcalc]

/-- Witness for C7: a consistent market (one BUY batch) where the
currentValue formula holds, and an inconsistent market (a divestment of 40
shares never bought) that is excluded from the write and reported. -/
theorem market_pnl_current_value_and_inconsistency_witness :
    ((⟨50, 0, 50, 0⟩ : PnlResult).currentValue =
      ((batchOutcomes [⟨⟨"YES", 0, .investment⟩, -50, 100⟩]).map fun o =>
        max 0 (outstandingShares [⟨⟨"YES", 0, .investment⟩, -50, 100⟩] o) *
          (fun x => if x = "YES" then (1 : Rat)/2 else 0) o).sum ∧
      ∀ o ∈ batchOutcomes [⟨⟨"YES", 0, .investment⟩, -50, 100⟩],
        0 ≤ outstandingShares [⟨⟨"YES", 0, .investment⟩, -50, 100⟩] o) ∧
    (marketWrite [⟨⟨"NO", 0, .divestment⟩, 30, -40⟩] (fun _ => 1) = none ∧
     ∃ e, marketError [⟨⟨"NO", 0, .divestment⟩, 30, -40⟩] (fun _ => 1) = some e) :=
  ⟨(market_pnl_current_value_and_inconsistency
      [⟨⟨"YES", 0, .investment⟩, -50, 100⟩]
      (fun x => if x = "YES" then (1 : Rat)/2 else 0)).1
    ⟨50, 0, 50, 0⟩
    (by norm_num +decide [calcMarketPnl, batchOutcomes, List.find?, outstandingShares,
      investmentShares, divestmentSharesMag, sumSharesP, sumAmountP, totalInvested,
      totalDivested, currentValueOf, List.filter, List.dedup, List.dedup_cons_of_not_mem]),
   (market_pnl_current_value_and_inconsistency
      [⟨⟨"NO", 0, .divestment⟩, 30, -40⟩] (fun _ => 1)).2
    ⟨"NO",
     by norm_num +decide [batchOutcomes, List.dedup, List.dedup_cons_of_not_mem],
     by norm_num +decide [outstandingShares, investmentShares, divestmentSharesMag,
       sumSharesP, List.filter]⟩⟩

/-! ## Theorems: trade aggregation (C4) -/

/-- C4: per market/outcome the batches produced by the Trade Aggregator sum
(signed amounts and signed share deltas) to exactly what the underlying raw
trades sum to; the per-key aggregation totals are invariant under any
permutation of the input trades; and aggregating a concatenation of fetch
pages gives the per-key sum of the pages' aggregates. -/
theorem trade_aggregation_roundtrip (ts ts' extra : List Trade) (o : String)
    (k : BatchKey) (hperm : ts.Perm ts') :
    (sumAmountP (aggregateTrades ts) (fun kk => kk.outcome = o)
       = tradesAmountP ts (fun kk => kk.outcome = o) ∧
     sumSharesP (aggregateTrades ts) (fun kk => kk.outcome = o)
       = tradesSharesP ts (fun kk => kk.outcome = o)) ∧
    (sumAmountP (aggregateTrades ts) (fun kk => kk = k)
       = sumAmountP (aggregateTrades ts') (fun kk => kk = k) ∧
     sumSharesP (aggregateTrades ts) (fun kk => kk = k)
       = sumSharesP (aggregateTrades ts') (fun kk => kk = k)) ∧
    (sumAmountP (aggregateTrades (ts ++ extra)) (fun kk => kk = k)
       = sumAmountP (aggregateTrades ts) (fun kk => kk = k)
         + sumAmountP (aggregateTrades extra) (fun kk => kk = k) ∧
     sumSharesP (aggregateTrades (ts ++ extra)) (fun kk => kk = k)
       = sumSharesP (aggregateTrades ts) (fun kk => kk = k)
         + sumSharesP (aggregateTrades extra) (fun kk => kk = k)) := by
  refine ⟨⟨aggregate_sumAmountP ts _, aggregate_sumSharesP ts _⟩,
          ⟨?_, ?_⟩, ⟨?_, ?_⟩⟩
  · rw [aggregate_sumAmountP, aggregate_sumAmountP]
    exact tradesAmountP_perm hperm _
  · rw [aggregate_sumSharesP, aggregate_sumSharesP]
    exact tradesSharesP_perm hperm _
  · rw [aggregate_sumAmountP, aggregate_sumAmountP, aggregate_sumAmountP,
      tradesAmountP_append]
  · rw [aggregate_sumSharesP, aggregate_sumSharesP, aggregate_sumSharesP,
      tradesSharesP_append]

/-- Witness for C4 at concrete trades: two same-key BUYs in both orders and
a later SELL page. -/
theorem trade_aggregation_roundtrip_witness :
    (sumAmountP (aggregateTrades [sampleBuyA, sampleBuyB])
       (fun kk => kk.outcome = "YES")
       = tradesAmountP [sampleBuyA, sampleBuyB] (fun kk => kk.outcome = "YES") ∧
     sumSharesP (aggregateTrades [sampleBuyA, sampleBuyB])
       (fun kk => kk.outcome = "YES")
       = tradesSharesP [sampleBuyA, sampleBuyB] (fun kk => kk.outcome = "YES")) ∧
    (sumAmountP (aggregateTrades [sampleBuyA, sampleBuyB])
       (fun kk => kk = ⟨"YES", 0, .investment⟩)
       = sumAmountP (aggregateTrades [sampleBuyB, sampleBuyA])
         (fun kk => kk = ⟨"YES", 0, .investment⟩) ∧
     sumSharesP (aggregateTrades [sampleBuyA, sampleBuyB])
       (fun kk => kk = ⟨"YES", 0, .investment⟩)
       = sumSharesP (aggregateTrades [sampleBuyB, sampleBuyA])
         (fun kk => kk = ⟨"YES", 0, .investment⟩)) ∧
    (sumAmountP (aggregateTrades ([sampleBuyA, sampleBuyB] ++ [sampleSell]))
       (fun kk => kk = ⟨"YES", 0, .investment⟩)
       = sumAmountP (aggregateTrades [sampleBuyA, sampleBuyB])
         (fun kk => kk = ⟨"YES", 0, .investment⟩)
         + sumAmountP (aggregateTrades [sampleSell])
           (fun kk => kk = ⟨"YES", 0, .investment⟩) ∧
     sumSharesP (aggregateTrades ([sampleBuyA, sampleBuyB] ++ [sampleSell]))
       (fun kk => kk = ⟨"YES", 0, .investment⟩)
       = sumSharesP (aggregateTrades [sampleBuyA, sampleBuyB])
         (fun kk => kk = ⟨"YES", 0, .investment⟩)
         + sumSharesP (aggregateTrades [sampleSell])
           (fun kk => kk = ⟨"YES", 0, .investment⟩)) :=
  trade_aggregation_roundtrip [sampleBuyA, sampleBuyB] [sampleBuyB, sampleBuyA]
    [sampleSell] "YES" ⟨"YES", 0, .investment⟩
    (List.Perm.swap sampleBuyB sampleBuyA [])

/-! ## Reconciler lemmas -/

lemma findApi_eq_none_iff (api : List ApiPosition) (k : PosKey) :
    findApi api k = none ↔ ∀ a ∈ api, a.key ≠ k := by
  simp [findApi, List.find?_eq_none]

lemma findDb_isSome_iff (db : List DbPosition) (k : PosKey) :
    (findDb db k).isSome ↔ ∃ d ∈ db, d.key = k := by
  simp [findDb, List.find?_isSome]

lemma findApi_self (api : List ApiPosition)
    (hnd : (api.map ApiPosition.key).Nodup) (a : ApiPosition) (ha : a ∈ api) :
    findApi api a.key = some a := by
  induction api with
  | nil => cases ha
  | cons b rest ih =>
    have hnd' : (rest.map ApiPosition.key).Nodup :=
      (List.nodup_cons.mp (by simpa using hnd)).2
    have hbmem : b.key ∉ rest.map ApiPosition.key :=
      (List.nodup_cons.mp (by simpa using hnd)).1
    rcases List.mem_cons.mp ha with rfl | ha'
    · simp [findApi, List.find?]
    · have hbk : ¬(b.key = a.key) := by
        intro h
        exact hbmem (h ▸ List.mem_map_of_mem ApiPosition.key ha')
      simp only [findApi, List.find?, decide_eq_false hbk]
      exact ih hnd' ha'

/-- The per-row rewrite of `applyChanges` preserves the composite key. -/
lemma applyChanges_row_key (api : List ApiPosition) (hasRes : PosKey → Bool)
    (d : DbPosition) :
    ((match findApi api d.key with
      | some a => { d with shares := a.shares, price := a.price,
                           status := PositionStatus.OPEN }
      | none =>
        if d.status = PositionStatus.OPEN then
          { d with status := if hasRes d.key then PositionStatus.CLOSED
                             else PositionStatus.CLOSED_NEED_DATA }
        else d) : DbPosition).key = d.key := by
  cases findApi api d.key with
  | some a => rfl
  | none =>
    by_cases hst : d.status = PositionStatus.OPEN
    · simp only [if_pos hst]
      rfl
    · simp only [if_neg hst]

/-- After applying a pass's change-set, every persisted row is either synced
verbatim to the (unique) API snapshot entry for its key and OPEN, or absent
from the API snapshot and not OPEN. -/
lemma applyChanges_mem (api : List ApiPosition) (db : List DbPosition)
    (hasRes : PosKey → Bool) (hnd : (api.map ApiPosition.key).Nodup)
    (d' : DbPosition) (hd' : d' ∈ applyChanges api db hasRes) :
    (∃ a, findApi api d'.key = some a ∧ d'.shares = a.shares ∧
      d'.price = a.price ∧ d'.status = PositionStatus.OPEN) ∨
    (findApi api d'.key = none ∧ d'.status ≠ PositionStatus.OPEN) := by
  simp only [applyChanges, List.mem_append, List.mem_map, List.mem_filter]
    at hd'
  rcases hd' with ⟨d, _, rfl⟩ | ⟨a, ⟨ha, _⟩, rfl⟩
  · rw [applyChanges_row_key api hasRes d]
    cases hfa : findApi api d.key with
    | some a =>
      left
      exact ⟨a, rfl, rfl, rfl, rfl⟩
    | none =>
      right
      refine ⟨rfl, ?_⟩
      show (if d.status = PositionStatus.OPEN then
          ({ d with status := if hasRes d.key then PositionStatus.CLOSED
                              else PositionStatus.CLOSED_NEED_DATA } : DbPosition)
        else d).status ≠ PositionStatus.OPEN
      by_cases hst : d.status = PositionStatus.OPEN
      · simp only [if_pos hst]
        cases hres : hasRes d.key <;> simp [hres]
      · simp only [if_neg hst]
        exact hst
  · left
    have hkey : (DbPosition.mk a.conditionId a.outcome a.shares a.price
        PositionStatus.OPEN).key = a.key := rfl
    rw [hkey]
    exact ⟨a, findApi_self api hnd a ha, rfl, rfl, rfl⟩

/-- Every API key is present in the applied snapshot. -/
lemma applyChanges_covers_api (api : List ApiPosition) (db : List DbPosition)
    (hasRes : PosKey → Bool) (a : ApiPosition) (ha : a ∈ api) :
    ∃ d' ∈ applyChanges api db hasRes, d'.key = a.key := by
  cases hdb : findDb db a.key with
  | some d =>
    have hd : d ∈ db ∧ d.key = a.key := by
      have h1 := List.mem_of_find?_eq_some hdb
      have h2 := List.find?_some hdb
      exact ⟨h1, by simpa using h2⟩
    refine ⟨(match findApi api d.key with
      | some a => { d with shares := a.shares, price := a.price,
                           status := PositionStatus.OPEN }
      | none =>
        if d.status = PositionStatus.OPEN then
          { d with status := if hasRes d.key then PositionStatus.CLOSED
                             else PositionStatus.CLOSED_NEED_DATA }
        else d), ?_, ?_⟩
    · simp only [applyChanges, List.mem_append, List.mem_map]
      exact Or.inl ⟨d, hd.1, rfl⟩
    · rw [applyChanges_row_key api hasRes d]
      exact hd.2
  | none =>
    refine ⟨⟨a.conditionId, a.outcome, a.shares, a.price,
      PositionStatus.OPEN⟩, ?_, rfl⟩
    simp only [applyChanges, List.mem_append, List.mem_map, List.mem_filter]
    exact Or.inr ⟨a, ⟨ha, by simp [hdb]⟩, rfl⟩

/-! ## Theorem: idempotence (C5) -/

/-- C5: with no new upstream data, a second reconciliation pass is a no-op —
all four sets come back empty; and re-running aggregation over a superset of
the already-seen trades and persisting it with key-overwriting upserts gives
the same stored batches as persisting the superset's aggregation once (no
double-counting). -/
theorem reconciliation_and_aggregation_idempotent
    (api : List ApiPosition) (db : List DbPosition) (hasRes : PosKey → Bool)
    (store : List Batch) (ts extra : List Trade) (k : BatchKey)
    (hnd : (api.map ApiPosition.key).Nodup) :
    reconcile api (applyChanges api db hasRes)
      = ⟨[], [], [], []⟩ ∧
    lookupStore (persistBatches (persistBatches store (aggregateTrades ts))
        (aggregateTrades (ts ++ extra))) k
      = lookupStore (persistBatches store (aggregateTrades (ts ++ extra))) k := by
  constructor
  · have hcreate : (api.filter fun a =>
        (findDb (applyChanges api db hasRes) a.key).isNone) = [] := by
      rw [List.filter_eq_nil]
      intro a ha
      obtain ⟨d', hd', hk⟩ := applyChanges_covers_api api db hasRes a ha
      have : (findDb (applyChanges api db hasRes) a.key).isSome :=
        (findDb_isSome_iff _ _).mpr ⟨d', hd', hk⟩
      simp only [Option.isNone]
      rcases hfd : findDb (applyChanges api db hasRes) a.key with _ | d''
      · rw [hfd] at this
        simp at this
      · simp
    have hclose : ((applyChanges api db hasRes).filter fun d =>
        decide (d.status = PositionStatus.OPEN) &&
          (findApi api d.key).isNone) = [] := by
      rw [List.filter_eq_nil]
      intro d' hd'
      rcases applyChanges_mem api db hasRes hnd d' hd' with
        ⟨a, hfa, _, _, _⟩ | ⟨hfa, hst⟩
      · simp [hfa]
      · simp [hst]
    have hreopen : ((applyChanges api db hasRes).filter fun d =>
        decide (d.status ≠ PositionStatus.OPEN) &&
          (findApi api d.key).isSome) = [] := by
      rw [List.filter_eq_nil]
      intro d' hd'
      rcases applyChanges_mem api db hasRes hnd d' hd' with
        ⟨a, hfa, _, _, hst⟩ | ⟨hfa, hst⟩
      · simp [hst]
      · simp [hfa]
    have hupdate : ((applyChanges api db hasRes).filter fun d =>
        match findApi api d.key with
        | some a => decide (d.status = PositionStatus.OPEN) &&
            decide (a.shares ≠ d.shares ∨ a.price ≠ d.price)
        | none => false) = [] := by
      rw [List.filter_eq_nil]
      intro d' hd'
      rcases applyChanges_mem api db hasRes hnd d' hd' with
        ⟨a, hfa, hsh, hpr, _⟩ | ⟨hfa, _⟩
      · simp [hfa, hsh, hpr]
      · simp [hfa]
    simp only [reconcile, ReconcileResult.mk.injEq]
    exact ⟨hcreate, hclose, hreopen, hupdate⟩
  · by_cases hk : ∃ b ∈ aggregateTrades (ts ++ extra), b.key = k
    · exact lookupStore_persistBatches_congr _ _ _ _ (Or.inl hk)
    · have hk1 : ∀ b ∈ aggregateTrades ts, b.key ≠ k := by
        intro b hb hbk
        apply hk
        obtain ⟨t, ht, h1, h2⟩ :=
          (mem_key_aggregateTrades ts k).mp ⟨b, hb, hbk⟩
        exact (mem_key_aggregateTrades _ k).mpr
          ⟨t, List.mem_append_left _ ht, h1, h2⟩
      exact lookupStore_persistBatches_congr _ _ _ _
        (Or.inr (lookupStore_persistBatches_of_no_key store _ k hk1))

/-- Witness for C5 at a concrete wallet: one API position already applied to
a two-row DB snapshot, and a one-trade page later extended by a second
trade. -/
theorem reconciliation_and_aggregation_idempotent_witness :
    reconcile [⟨"c1", "YES", 120, 1⟩]
      (applyChanges [⟨"c1", "YES", 120, 1⟩]
        [⟨"c1", "YES", 100, 1, PositionStatus.OPEN⟩,
         ⟨"c2", "NO", 50, 1, PositionStatus.CLOSED⟩]
        (fun _ => true)) = ⟨[], [], [], []⟩ ∧
    lookupStore (persistBatches (persistBatches []
        (aggregateTrades [sampleBuyA]))
        (aggregateTrades ([sampleBuyA] ++ [sampleSell])))
        ⟨"YES", 0, TradeDirection.investment⟩
      = lookupStore (persistBatches []
        (aggregateTrades ([sampleBuyA] ++ [sampleSell])))
        ⟨"YES", 0, TradeDirection.investment⟩ :=
  reconciliation_and_aggregation_idempotent
    [⟨"c1", "YES", 120, 1⟩]
    [⟨"c1", "YES", 100, 1, PositionStatus.OPEN⟩,
     ⟨"c2", "NO", 50, 1, PositionStatus.CLOSED⟩]
    (fun _ => true) [] [sampleBuyA] [sampleSell]
    ⟨"YES", 0, TradeDirection.investment⟩ (by decide)

/-! ## Partition characterization (C3) -/

lemma findApi_isSome_iff (api : List ApiPosition) (k : PosKey) :
    (findApi api k).isSome ↔ ∃ a ∈ api, a.key = k := by
  simp [findApi, List.find?_isSome]

lemma findDb_self (db : List DbPosition)
    (hnd : (db.map DbPosition.key).Nodup) (d : DbPosition) (hd : d ∈ db) :
    findDb db d.key = some d := by
  induction db with
  | nil => cases hd
  | cons b rest ih =>
    have hnd' : (rest.map DbPosition.key).Nodup :=
      (List.nodup_cons.mp (by simpa using hnd)).2
    have hbmem : b.key ∉ rest.map DbPosition.key :=
      (List.nodup_cons.mp (by simpa using hnd)).1
    rcases List.mem_cons.mp hd with rfl | hd'
    · simp [findDb, List.find?]
    · have hbk : ¬(b.key = d.key) := by
        intro h
        exact hbmem (h ▸ List.mem_map_of_mem DbPosition.key hd')
      simp only [findDb, List.find?, decide_eq_false hbk]
      exact ih hnd' hd'

lemma mem_createKeys (api : List ApiPosition) (db : List DbPosition)
    (k : PosKey) :
    k ∈ createKeys (reconcile api db)
      ↔ (∃ a ∈ api, a.key = k) ∧ findDb db k = none := by
  simp only [createKeys, reconcile, List.mem_map, List.mem_filter,
    Option.isNone_iff_eq_none]
  constructor
  · rintro ⟨a, ⟨ha, hnone⟩, rfl⟩
    exact ⟨⟨a, ha, rfl⟩, hnone⟩
  · rintro ⟨⟨a, ha, rfl⟩, hnone⟩
    exact ⟨a, ⟨ha, hnone⟩, rfl⟩

lemma mem_closeKeys (api : List ApiPosition) (db : List DbPosition)
    (k : PosKey) :
    k ∈ closeKeys (reconcile api db)
      ↔ ∃ d ∈ db, d.key = k ∧ d.status = PositionStatus.OPEN ∧
          findApi api k = none := by
  simp only [closeKeys, reconcile, List.mem_map, List.mem_filter,
    Bool.and_eq_true, decide_eq_true_eq, Option.isNone_iff_eq_none]
  constructor
  · rintro ⟨d, ⟨hd, hst, hnone⟩, rfl⟩
    exact ⟨d, hd, rfl, hst, hnone⟩
  · rintro ⟨d, hd, rfl, hst, hnone⟩
    exact ⟨d, ⟨hd, hst, hnone⟩, rfl⟩

lemma mem_reopenKeys (api : List ApiPosition) (db : List DbPosition)
    (k : PosKey) :
    k ∈ reopenKeys (reconcile api db)
      ↔ ∃ d ∈ db, d.key = k ∧ d.status ≠ PositionStatus.OPEN ∧
          (findApi api k).isSome := by
  simp only [reopenKeys, reconcile, List.mem_map, List.mem_filter,
    Bool.and_eq_true, decide_eq_true_eq]
  constructor
  · rintro ⟨d, ⟨hd, hst, hsome⟩, rfl⟩
    exact ⟨d, hd, rfl, hst, hsome⟩
  · rintro ⟨d, hd, rfl, hst, hsome⟩
    exact ⟨d, ⟨hd, hst, hsome⟩, rfl⟩

lemma mem_updateKeys (api : List ApiPosition) (db : List DbPosition)
    (k : PosKey) :
    k ∈ updateKeys (reconcile api db)
      ↔ ∃ d ∈ db, d.key = k ∧ d.status = PositionStatus.OPEN ∧
          ∃ a, findApi api k = some a ∧
            (a.shares ≠ d.shares ∨ a.price ≠ d.price) := by
  simp only [updateKeys, reconcile, List.mem_map, List.mem_filter]
  constructor
  · rintro ⟨d, ⟨hd, hpred⟩, rfl⟩
    rcases hfa : findApi api d.key with _ | a
    · rw [hfa] at hpred
      exact absurd hpred (by simp)
    · rw [hfa] at hpred
      simp only [Bool.and_eq_true, decide_eq_true_eq] at hpred
      exact ⟨d, hd, rfl, hpred.1, a, rfl, hpred.2⟩
  · rintro ⟨d, hd, rfl, hst, a, hfa, hdiff⟩
    refine ⟨d, ⟨hd, ?_⟩, rfl⟩
    rw [hfa]
    simp [hst, hdiff]

/-- C3 counterexample: for the API snapshot `[("c1","YES"), 100 shares]` and
the persisted snapshot `[("c1","YES") OPEN unchanged, ("c2","NO") CLOSED]`,
both keys are present in a snapshot yet appear in none of the four output
sets: the claimed total partition fails. -/
theorem reconcile_partition_counterexample :
    ("c1", "YES") ∈ snapshotKeys [⟨"c1", "YES", 100, 1⟩]
      [⟨"c1", "YES", 100, 1, PositionStatus.OPEN⟩,
       ⟨"c2", "NO", 50, 1, PositionStatus.CLOSED⟩] ∧
    ("c2", "NO") ∈ snapshotKeys [⟨"c1", "YES", 100, 1⟩]
      [⟨"c1", "YES", 100, 1, PositionStatus.OPEN⟩,
       ⟨"c2", "NO", 50, 1, PositionStatus.CLOSED⟩] ∧
    membershipCount (reconcile [⟨"c1", "YES", 100, 1⟩]
      [⟨"c1", "YES", 100, 1, PositionStatus.OPEN⟩,
       ⟨"c2", "NO", 50, 1, PositionStatus.CLOSED⟩]) ("c1", "YES") = 0 ∧
    membershipCount (reconcile [⟨"c1", "YES", 100, 1⟩]
      [⟨"c1", "YES", 100, 1, PositionStatus.OPEN⟩,
       ⟨"c2", "NO", 50, 1, PositionStatus.CLOSED⟩]) ("c2", "NO") = 0 := by
  refine ⟨by simp [snapshotKeys, ApiPosition.key], by
    simp [snapshotKeys, DbPosition.key], ?_, ?_⟩ <;>
    simp [membershipCount, createKeys, closeKeys, reopenKeys, updateKeys,
      reconcile, findApi, findDb, List.find?, List.filter,
      ApiPosition.key, DbPosition.key]

/-- C3 amended: when both snapshots have duplicate-free composite keys,
every key present in either snapshot appears in at most one of the four
output sets, and in exactly one unless the reconciler has nothing to do for
it — i.e. unless the key is in both snapshots unchanged while OPEN, or only
in the DB and already closed. -/
theorem reconcile_partition_amended (api : List ApiPosition)
    (db : List DbPosition) (k : PosKey)
    (hnddb : (db.map DbPosition.key).Nodup)
    (hk : k ∈ snapshotKeys api db) :
    membershipCount (reconcile api db) k ≤ 1 ∧
    (noActionKey api db k = false → membershipCount (reconcile api db) k = 1) := by
  rcases hdb : findDb db k with _ | d
  · -- the key is absent from the persisted snapshot: it must come from the
    -- API snapshot, landing exactly in toCreate
    have hnodb : ¬∃ d ∈ db, d.key = k := by
      rintro hex
      have := (findDb_isSome_iff db k).mpr hex
      rw [hdb] at this
      simp at this
    have hapi : ∃ a ∈ api, a.key = k := by
      simp only [snapshotKeys, List.mem_append, List.mem_map] at hk
      rcases hk with ⟨a, ha, rfl⟩ | ⟨d, hd, rfl⟩
      · exact ⟨a, ha, rfl⟩
      · exact absurd ⟨d, hd, rfl⟩ hnodb
    have hc1 : k ∈ createKeys (reconcile api db) :=
      (mem_createKeys api db k).mpr ⟨hapi, hdb⟩
    have hc2 : k ∉ closeKeys (reconcile api db) := by
      rw [mem_closeKeys]
      rintro ⟨d, hd, hkd, _⟩
      exact hnodb ⟨d, hd, hkd⟩
    have hc3 : k ∉ reopenKeys (reconcile api db) := by
      rw [mem_reopenKeys]
      rintro ⟨d, hd, hkd, _⟩
      exact hnodb ⟨d, hd, hkd⟩
    have hc4 : k ∉ updateKeys (reconcile api db) := by
      rw [mem_updateKeys]
      rintro ⟨d, hd, hkd, _⟩
      exact hnodb ⟨d, hd, hkd⟩
    simp [membershipCount, hc1, hc2, hc3, hc4]
  · -- the key has a unique persisted row d
    have hd : d ∈ db := List.mem_of_find?_eq_some hdb
    have hkd : d.key = k := by simpa using List.find?_some hdb
    have huniq : ∀ d' ∈ db, d'.key = k → d' = d := by
      intro d' hd' hk'
      have h := findDb_self db hnddb d' hd'
      rw [hk', hdb] at h
      exact (Option.some.inj h).symm
    have hc1 : k ∉ createKeys (reconcile api db) := by
      rw [mem_createKeys]
      rintro ⟨_, hnone⟩
      rw [hdb] at hnone
      cases hnone
    rcases hfa : findApi api k with _ | a
    · -- key absent from the API snapshot
      have hc3 : k ∉ reopenKeys (reconcile api db) := by
        rw [mem_reopenKeys]
        rintro ⟨d', _, _, _, hsome⟩
        rw [hfa] at hsome
        cases hsome
      have hc4 : k ∉ updateKeys (reconcile api db) := by
        rw [mem_updateKeys]
        rintro ⟨d', _, _, _, a, hsome, _⟩
        rw [hfa] at hsome
        cases hsome
      have hnoact : noActionKey api db k = decide (d.status ≠ PositionStatus.OPEN) := by
        unfold noActionKey
        rw [hdb, hfa]
      by_cases hst : d.status = PositionStatus.OPEN
      · have hc2 : k ∈ closeKeys (reconcile api db) :=
          (mem_closeKeys api db k).mpr ⟨d, hd, hkd, hst, hfa⟩
        simp [membershipCount, hc1, hc2, hc3, hc4]
      · have hc2 : k ∉ closeKeys (reconcile api db) := by
          rw [mem_closeKeys]
          rintro ⟨d', hd', hkd', hst', _⟩
          exact hst (huniq d' hd' hkd' ▸ hst')
        constructor
        · simp [membershipCount, hc1, hc2, hc3, hc4]
        · intro hfalse
          rw [hnoact] at hfalse
          simp only [decide_eq_false_iff_not, not_not] at hfalse
          exact absurd hfalse hst
    · -- key present in both snapshots
      have hc2 : k ∉ closeKeys (reconcile api db) := by
        rw [mem_closeKeys]
        rintro ⟨d', _, _, _, hnone⟩
        rw [hfa] at hnone
        cases hnone
      have hnoact : noActionKey api db k
          = (decide (d.status = PositionStatus.OPEN) &&
             decide (a.shares = d.shares) && decide (a.price = d.price)) := by
        unfold noActionKey
        rw [hdb, hfa]
      by_cases hst : d.status = PositionStatus.OPEN
      · have hc3 : k ∉ reopenKeys (reconcile api db) := by
          rw [mem_reopenKeys]
          rintro ⟨d', hd', hkd', hst', _⟩
          exact hst' (huniq d' hd' hkd' ▸ hst)
        by_cases hdiff : a.shares = d.shares ∧ a.price = d.price
        · have hc4 : k ∉ updateKeys (reconcile api db) := by
            rw [mem_updateKeys]
            rintro ⟨d', hd', hkd', _, a', hfa', hdiff'⟩
            have hda : d' = d := huniq d' hd' hkd'
            have haa : a' = a := by
              rw [hfa] at hfa'
              exact ((Option.some.injEq _ _).mp hfa').symm
            subst hda
            subst haa
            rcases hdiff' with h | h
            · exact h hdiff.1
            · exact h hdiff.2
          constructor
          · simp [membershipCount, hc1, hc2, hc3, hc4]
          · intro hfalse
            rw [hnoact] at hfalse
            simp only [Bool.and_eq_false_iff, decide_eq_false_iff_not] at hfalse
            rcases hfalse with (h | h) | h
            · exact absurd hst h
            · exact absurd hdiff.1 h
            · exact absurd hdiff.2 h
        · have hc4 : k ∈ updateKeys (reconcile api db) := by
            rw [mem_updateKeys]
            exact ⟨d, hd, hkd, hst, a, hfa, by
              rcases Decidable.not_and_iff_or_not.mp hdiff with h | h
              · exact Or.inl h
              · exact Or.inr h⟩
          simp [membershipCount, hc1, hc2, hc3, hc4]
      · have hc3 : k ∈ reopenKeys (reconcile api db) :=
          (mem_reopenKeys api db k).mpr ⟨d, hd, hkd, hst, by simp [hfa]⟩
        have hc4 : k ∉ updateKeys (reconcile api db) := by
          rw [mem_updateKeys]
          rintro ⟨d', hd', hkd', hst', _⟩
          exact hst (huniq d' hd' hkd' ▸ hst')
        simp [membershipCount, hc1, hc2, hc3, hc4]

/-- Witness for the amended C3 at a concrete input: a key present in both
snapshots with a changed share count lands in exactly one set. -/
theorem reconcile_partition_amended_witness :
    membershipCount (reconcile [⟨"c3", "YES", 120, 1⟩]
      [⟨"c3", "YES", 100, 1, PositionStatus.OPEN⟩]) ("c3", "YES") ≤ 1 ∧
    (noActionKey [⟨"c3", "YES", 120, 1⟩]
        [⟨"c3", "YES", 100, 1, PositionStatus.OPEN⟩] ("c3", "YES") = false →
      membershipCount (reconcile [⟨"c3", "YES", 120, 1⟩]
        [⟨"c3", "YES", 100, 1, PositionStatus.OPEN⟩]) ("c3", "YES") = 1) :=
  reconcile_partition_amended [⟨"c3", "YES", 120, 1⟩]
    [⟨"c3", "YES", 100, 1, PositionStatus.OPEN⟩] ("c3", "YES")
    (by decide) (by decide)

end Polyedge
